import Mathlib

/-!
Formal model of FileXTransfer (src/backend.py and src/main.py).

Shallow embedding conventions:
- File contents are `List Nat` (byte sequences).
- The filesystem responses to a single `copy_file` call inside the batch
  runner are abstracted as an oracle `CopyOracle` returning `Except.ok` for
  a successful copy and `Except.error msg` for a raised exception, mirroring
  Python's try/except around `backend.copy_file`.
- `os.walk` output is abstracted as `Option (List String)`: `some raws` is
  the list of relative paths (as produced by `os.path.relpath`) of the
  regular files the walk yields under an existing root; `none` stands for a
  non-existent or unreadable root, for which `os.walk` yields no entries at
  all (its default `onerror=None` swallows the failure).
-/

namespace FileXTransfer

/-- Embeds `backend._normalize_rel` character action: Python's
`path.replace("\\", "/")` replaces every backslash character with a slash. -/
def normChar (c : Char) : Char := if c = '\\' then '/' else c

/-- Embeds `backend._normalize_rel` (backend.py lines 8-10):
`return path.replace("\\", "/")`. -/
def normalize_rel (p : String) : String := ⟨p.data.map normChar⟩

/-- Embeds `backend.DEFAULT_CHUNK_SIZE = 64 * 1024 * 1024` (backend.py line 5). -/
def DEFAULT_CHUNK_SIZE : Nat := 64 * 1024 * 1024

/-- Embeds the chunked read/write loop of `backend.copy_file`
(backend.py lines 53-58): repeatedly `buf = r.read(chunk_size)`
(modelled as `remaining.take chunkSize`), stop when `buf` is empty,
else `w.write(buf)` (modelled as appending to `written`) and advance the
reader (`remaining.drop chunkSize`). -/
def chunkedWrite (chunkSize : Nat) (remaining written : List Nat) : List Nat :=
  if (remaining.take chunkSize).isEmpty then written
  else chunkedWrite chunkSize (remaining.drop chunkSize) (written ++ remaining.take chunkSize)
termination_by remaining.length
decreasing_by
  rename_i h
  simp only [List.isEmpty_iff, List.take_eq_nil_iff] at h
  push_neg at h
  have hlen : 0 < remaining.length := List.length_pos.mpr h.2
  rw [List.length_drop]
  omega

/-- Modelled from the spec: `shutil.copy2` (Python standard library, called
at backend.py line 49) performs a whole-file copy whose destination content
is byte-identical to the source. -/
def copy2_content (src : List Nat) : List Nat := src

/-- Embeds `backend.copy_file` (backend.py lines 40-65) at the level of the
destination content it produces. `utime` models the outcome of the
`os.stat`/`os.utime` timestamp step (backend.py lines 61-65); the source
wraps it in `try: ... except Exception: pass`, so both outcomes fall through
to the same successful return. The fast path (`not chunked`) delegates to
`shutil.copy2`; the chunked path runs the read/write loop. -/
def copy_file (utime : Except String Unit) (chunked : Bool) (chunkSize : Nat)
    (src : List Nat) : Except String (List Nat) :=
  if chunked = false then Except.ok (copy2_content src)
  else
    match utime with
    | Except.ok _ => Except.ok (chunkedWrite chunkSize src [])
    | Except.error _ => Except.ok (chunkedWrite chunkSize src [])

theorem normChar_idem (c : Char) : normChar (normChar c) = normChar c := by
  by_cases h : c = '\\' <;> simp [normChar, h]

theorem chunkedWrite_pos (n : Nat) (hn : 0 < n) :
    ∀ (k : Nat) (rem w : List Nat), rem.length ≤ k → chunkedWrite n rem w = w ++ rem := by
  intro k
  induction k with
  | zero =>
    intro rem w h
    have : rem = [] := List.eq_nil_of_length_eq_zero (Nat.le_zero.mp h)
    subst this
    rw [chunkedWrite]
    simp
  | succ k ih =>
    intro rem w h
    rw [chunkedWrite]
    by_cases hb : (rem.take n).isEmpty
    · simp only [List.isEmpty_iff, List.take_eq_nil_iff] at hb
      rcases hb with hb | hb
      · omega
      · subst hb; simp
    · rw [if_neg hb]
      have hne : rem ≠ [] := by
        intro hrem
        subst hrem
        simp at hb
      have hlen : 0 < rem.length := List.length_pos.mpr hne
      have hdrop : (rem.drop n).length ≤ k := by
        rw [List.length_drop]; omega
      rw [ih _ _ hdrop, List.append_assoc, List.take_append_drop]

theorem chunkedWrite_zero : ∀ (rem w : List Nat), chunkedWrite 0 rem w = w := by
  intro rem w
  rw [chunkedWrite]
  simp

/-- Embeds `backend.list_files_recursive` (backend.py lines 13-20): the walk
output (see module header for the `Option` encoding of `os.walk`) is mapped
through `_normalize_rel` and accumulated into a set; a `none` root produces
no walk entries, so the function returns the empty set without error. -/
def list_files_recursive (walked : Option (List String)) : Finset String :=
  match walked with
  | none => (∅ : Finset String)
  | some raws => (raws.map normalize_rel).toFinset

/-- Embeds `backend.compare` (backend.py lines 23-30):
`origin_files - dest_files` on the two indexed sets. -/
def compare (origin dest : Option (List String)) : Finset String :=
  list_files_recursive origin \ list_files_recursive dest

/-- Outcome of one `backend.copy_file` call against the real filesystem,
abstracted per (src, dst) joined path pair: `Except.ok ()` when the call
returns, `Except.error msg` when it raises an exception with message `msg`. -/
def CopyOracle : Type := String → String → Except String Unit

/-- Modelled from the spec: `os.path.join` (Python standard library) for two
components on a POSIX path flavour: an absolute second component replaces the
first; otherwise the components are joined with a single `/` separator. -/
def path_join (a b : String) : String :=
  if b.startsWith "/" then b
  else if a = "" then b
  else if a.endsWith "/" then a ++ b
  else a ++ "/" ++ b

/-- Embeds the `for rel_path in sorted(missing_files)` loop body of
`backend.copy_missing_files` (backend.py lines 76-84): normalize the path,
join with origin and dest, attempt the copy, and either increment the
success counter or append `f"{rel_norm} -> ERROR: {e}"` to the error list. -/
def copy_loop (copy : CopyOracle) (origin dest : String) :
    List String → Nat → List String → Nat × List String
  | [], success, errors => (success, errors)
  | relPath :: rest, success, errors =>
    match copy (path_join origin (normalize_rel relPath))
               (path_join dest (normalize_rel relPath)) with
    | Except.ok _ => copy_loop copy origin dest rest (success + 1) errors
    | Except.error e =>
        copy_loop copy origin dest rest success
          (errors ++ [normalize_rel relPath ++ " -> ERROR: " ++ e])

/-- Embeds `sorted(missing_files)` (backend.py line 76): Python's `sorted`
on a set of strings yields the list in lexicographic string order. -/
def sorted_missing (missing : List String) : List String :=
  missing.mergeSort (fun a b => decide (a ≤ b))

/-- Embeds `backend.copy_missing_files` (backend.py lines 68-86): run the
per-file loop over the sorted missing list, starting from zero successes and
an empty error list, and return `(success, errors)`. -/
def copy_missing_files (copy : CopyOracle) (missing : List String)
    (origin dest : String) : Nat × List String :=
  copy_loop copy origin dest (sorted_missing missing) 0 []

/-- The formatted error entry `backend.copy_missing_files` records for a
relative path whose copy raised, or `none` when the copy succeeded. -/
def failure_entry (copy : CopyOracle) (origin dest p : String) : Option String :=
  match copy (path_join origin (normalize_rel p)) (path_join dest (normalize_rel p)) with
  | Except.ok _ => none
  | Except.error e => some (normalize_rel p ++ " -> ERROR: " ++ e)

theorem copy_loop_count (copy : CopyOracle) (origin dest : String) :
    ∀ (ps : List String) (s : Nat) (es : List String),
      (copy_loop copy origin dest ps s es).1 + (copy_loop copy origin dest ps s es).2.length
        = s + es.length + ps.length := by
  intro ps
  induction ps with
  | nil => intro s es; simp [copy_loop]
  | cons p rest ih =>
    intro s es
    rcases h : copy (path_join origin (normalize_rel p)) (path_join dest (normalize_rel p)) with e | v
    · rw [copy_loop, h]
      rw [ih]
      simp only [List.length_append, List.length_cons]
      simp
      omega
    · rw [copy_loop, h]
      rw [ih]
      simp only [List.length_cons]
      omega

theorem copy_loop_errors (copy : CopyOracle) (origin dest : String) :
    ∀ (ps : List String) (s : Nat) (es : List String),
      (copy_loop copy origin dest ps s es).2
        = es ++ ps.filterMap (failure_entry copy origin dest) := by
  intro ps
  induction ps with
  | nil => intro s es; simp [copy_loop]
  | cons p rest ih =>
    intro s es
    rcases h : copy (path_join origin (normalize_rel p)) (path_join dest (normalize_rel p)) with e | v
    · rw [copy_loop, h, ih]
      simp [List.filterMap_cons, failure_entry, h]
    · rw [copy_loop, h, ih]
      simp [List.filterMap_cons, failure_entry, h]

/-- Modelled from the spec: `os.path.dirname` (Python standard library,
called at backend.py line 35) on a POSIX path flavour: everything before the
last `/`, and the empty string when the path has no separator. Degenerate
trailing-separator inputs are out of scope of this model. -/
def dirname (p : String) : String :=
  ⟨((p.data.reverse.dropWhile (fun c => c != '/')).drop 1).reverse⟩

theorem dirname_length_lt (p : String) (h : p ≠ "") : (dirname p).length < p.length := by
  have hd : p.data ≠ [] := by
    intro hnil
    apply h
    cases p
    simp at hnil
    simp [hnil]
  have hlen : 0 < p.data.length := List.length_pos.mpr hd
  have hdw : (p.data.reverse.dropWhile (fun c => c != '/')).length ≤ p.data.length := by
    calc (p.data.reverse.dropWhile (fun c => c != '/')).length
        ≤ p.data.reverse.length := (List.dropWhile_sublist _).length_le
      _ = p.data.length := List.length_reverse _
  show (((p.data.reverse.dropWhile (fun c => c != '/')).drop 1).reverse).length < p.data.length
  rw [List.length_reverse, List.length_drop]
  omega

/-- Modelled from the spec: `os.makedirs(p, exist_ok=True)` (Python standard
library, called at backend.py line 37) creates `p` together with every
missing ancestor directory; this lists `p` and its successive `dirname`s. -/
def makedirs_chain (p : String) : List String :=
  if _hp : p = "" then [] else p :: makedirs_chain (dirname p)
termination_by p.length
decreasing_by exact dirname_length_lt _ _hp

/-- Directory state after `os.makedirs(p, exist_ok=True)`: the existing
directories plus the full ancestor chain of `p`. -/
def makedirs (dirs : Finset String) (p : String) : Finset String :=
  dirs ∪ (makedirs_chain p).toFinset

/-- Embeds `backend.ensure_parent_dir` (backend.py lines 33-37) as a function
on the set of existing directories: `parent = os.path.dirname(path)`, and
`os.makedirs` runs only `if parent and not os.path.exists(parent)`. -/
def ensure_parent_dir (dirs : Finset String) (path : String) : Finset String :=
  if dirname path ≠ "" ∧ dirname path ∉ dirs then makedirs dirs (dirname path) else dirs

theorem mem_makedirs_chain_self (p : String) (h : p ≠ "") : p ∈ makedirs_chain p := by
  rw [makedirs_chain]
  simp [h]

/-- Events emitted by `CopyWorker` in `main.py`: the `line_log`, `progress`
and `finished` pyqtSignal emissions, in emission order. -/
inductive WEvent : Type
  | lineLog : String → WEvent
  | progressSig : Nat → Nat → String → WEvent
  | finished : Nat → Nat → String → WEvent
deriving DecidableEq

/-- Embeds the `for i, rel_path in enumerate(self.files, start=1)` loop of
`CopyWorker.run` (main.py lines 32-45): normalize the path, join with origin
and dest, attempt `backend.copy_file`, build the `OK:`/`ERROR:` message,
emit `line_log` then `progress(i, total, msg)`, and thread the success and
error counters. Returns the emitted events and the final counters. -/
def worker_loop (copy : CopyOracle) (origin dest : String) (total : Nat) :
    List String → Nat → Nat → Nat → List WEvent × Nat × Nat
  | [], _, success, errors => ([], success, errors)
  | f :: rest, i, success, errors =>
    match copy (path_join origin (normalize_rel f)) (path_join dest (normalize_rel f)) with
    | Except.ok _ =>
        let msg := "OK: " ++ normalize_rel f
        let r := worker_loop copy origin dest total rest (i + 1) (success + 1) errors
        (WEvent.lineLog msg :: WEvent.progressSig i total msg :: r.1, r.2)
    | Except.error e =>
        let msg := "ERROR: " ++ normalize_rel f ++ " (" ++ e ++ ")"
        let r := worker_loop copy origin dest total rest (i + 1) success (errors + 1)
        (WEvent.lineLog msg :: WEvent.progressSig i total msg :: r.1, r.2)

/-- Embeds `CopyWorker.run` (main.py lines 27-47): `total = len(self.files)`,
counters start at zero, the index starts at 1, and after the loop the
`finished(success, errors, self.dest)` signal is emitted. -/
def worker_run (copy : CopyOracle) (files : List String) (origin dest : String) :
    List WEvent :=
  (worker_loop copy origin dest files.length files 1 0 0).1
    ++ [WEvent.finished (worker_loop copy origin dest files.length files 1 0 0).2.1
          (worker_loop copy origin dest files.length files 1 0 0).2.2 dest]

/-- Extracts the `current` index of a `progress` emission. -/
def progressCurrent : WEvent → Option Nat
  | WEvent.progressSig c _ _ => some c
  | _ => none

/-- Recognizes the `finished` emission. -/
def isFinishedEvent : WEvent → Bool
  | WEvent.finished _ _ _ => true
  | _ => false

theorem worker_loop_progress (copy : CopyOracle) (origin dest : String) (total : Nat) :
    ∀ (files : List String) (i s e : Nat),
      (worker_loop copy origin dest total files i s e).1.filterMap progressCurrent
        = List.range' i files.length := by
  intro files
  induction files with
  | nil => intro i s e; simp [worker_loop]
  | cons f rest ih =>
    intro i s e
    rcases h : copy (path_join origin (normalize_rel f)) (path_join dest (normalize_rel f)) with er | v
    · rw [worker_loop, h]
      simp only [List.filterMap_cons, progressCurrent]
      rw [ih]
      simp [List.range'_succ]
    · rw [worker_loop, h]
      simp only [List.filterMap_cons, progressCurrent]
      rw [ih]
      simp [List.range'_succ]

theorem worker_loop_no_finished (copy : CopyOracle) (origin dest : String) (total : Nat) :
    ∀ (files : List String) (i s e : Nat),
      ∀ ev ∈ (worker_loop copy origin dest total files i s e).1,
        isFinishedEvent ev = false := by
  intro files
  induction files with
  | nil => intro i s e ev hev; simp [worker_loop] at hev
  | cons f rest ih =>
    intro i s e ev hev
    rcases h : copy (path_join origin (normalize_rel f)) (path_join dest (normalize_rel f)) with er | v
    · rw [worker_loop, h] at hev
      simp only [List.mem_cons] at hev
      rcases hev with rfl | rfl | hev
      · rfl
      · rfl
      · exact ih _ _ _ ev hev
    · rw [worker_loop, h] at hev
      simp only [List.mem_cons] at hev
      rcases hev with rfl | rfl | hev
      · rfl
      · rfl
      · exact ih _ _ _ ev hev

/-- C1: `compare A B` is exactly the set difference of the two indexed trees:
a normalized relative path is in the result iff some regular file under A
normalizes to it and no file under B does; as a pure function it is
deterministic on unchanged trees. -/
theorem compare_is_set_difference :
    (∀ (A B : Option (List String)) (p : String),
        p ∈ compare A B ↔ p ∈ list_files_recursive A ∧ p ∉ list_files_recursive B)
  ∧ (∀ (raws : List String) (p : String),
        p ∈ list_files_recursive (some raws) ↔ ∃ r ∈ raws, normalize_rel r = p)
  ∧ (∀ (A B : Option (List String)), compare A B = compare A B) := by
  refine ⟨?_, ?_, fun A B => rfl⟩
  · intro A B p
    simp [compare, Finset.mem_sdiff]
  · intro raws p
    simp [list_files_recursive, List.mem_toFinset, List.mem_map]

/-- C5: path normalization is a pure total function that maps every path
string to a canonical form using `/` only (no backslash separator survives
in the output); it is idempotent, and it maps `a\b/c` and `a/b/c` to the
same canonical form. -/
theorem normalize_rel_idempotent :
    (∀ p : String, '\\' ∉ (normalize_rel p).data)
  ∧ (∀ p : String, normalize_rel (normalize_rel p) = normalize_rel p)
  ∧ normalize_rel "a\\b/c" = normalize_rel "a/b/c" := by
  refine ⟨?_, ?_, by decide⟩
  · intro p hmem
    have hmem2 : '\\' ∈ p.data.map normChar := hmem
    rcases List.mem_map.mp hmem2 with ⟨c, _, hc⟩
    by_cases h : c = '\\' <;> simp [normChar, h] at hc
  · intro p
    show (⟨(p.data.map normChar).map normChar⟩ : String) = ⟨p.data.map normChar⟩
    rw [List.map_map]
    congr 1
    exact List.map_congr_left (fun c _ => normChar_idem c)

/-- C3: for any source content, the chunked mode (with the default 64 MiB
chunk size used by `copy_file`) and the fast `shutil.copy2` mode produce the
same destination content, equal to the source content at the time of read. -/
theorem copy_modes_equal_content :
    ∀ (u : Except String Unit) (src : List Nat),
      copy_file u true DEFAULT_CHUNK_SIZE src = copy_file u false DEFAULT_CHUNK_SIZE src
    ∧ copy_file u false DEFAULT_CHUNK_SIZE src = Except.ok src := by
  intro u src
  have hpos : 0 < DEFAULT_CHUNK_SIZE := by norm_num [DEFAULT_CHUNK_SIZE]
  have hchunk : chunkedWrite DEFAULT_CHUNK_SIZE src [] = src := by
    rw [chunkedWrite_pos DEFAULT_CHUNK_SIZE hpos src.length src [] le_rfl]
    simp
  cases u <;> simp [copy_file, copy2_content, hchunk]

/-- C10: the chunked copy guarantees destination = source only when the chunk
size is positive; at chunk size 0 the read loop stops at once and `copy_file`
still returns success with an empty (truncated) destination, even for a
non-empty source. -/
theorem copy_file_chunk_size_zero_truncates :
    (∀ (u : Except String Unit) (src : List Nat),
        copy_file u true 0 src = Except.ok [])
  ∧ (∀ (u : Except String Unit) (n : Nat) (src : List Nat), 0 < n →
        copy_file u true n src = Except.ok src)
  ∧ (∃ src : List Nat, src ≠ [] ∧ copy_file (Except.ok ()) true 0 src = Except.ok []) := by
  refine ⟨?_, ?_, ?_⟩
  · intro u src
    cases u <;> simp [copy_file, chunkedWrite_zero]
  · intro u n src hn
    have hchunk : chunkedWrite n src [] = src := by
      rw [chunkedWrite_pos n hn src.length src [] le_rfl]
      simp
    cases u <;> simp [copy_file, hchunk]
  · refine ⟨[1, 2, 3], by simp, ?_⟩
    simp [copy_file, chunkedWrite_zero]

/-- C10 witness: the positive-chunk-size guarantee instantiated at chunk size
2 and source `[5, 6, 7]`. -/
theorem copy_file_chunk_size_zero_truncates_witness :
    copy_file (Except.ok ()) true 2 [5, 6, 7] = Except.ok [5, 6, 7] :=
  copy_file_chunk_size_zero_truncates.2.1 (Except.ok ()) 2 [5, 6, 7] (by decide)

/-- C8: in chunked mode the timestamp step is best-effort: whatever the
outcome of `os.stat`/`os.utime` (the `utime` argument), `copy_file` returns
the same successful result; a timestamp failure never surfaces. -/
theorem timestamp_failure_swallowed :
    ∀ (u v : Except String Unit) (chunked : Bool) (n : Nat) (src : List Nat),
      copy_file u chunked n src = copy_file v chunked n src
    ∧ (∀ e : String, copy_file (Except.error e) true n src
          = Except.ok (chunkedWrite n src [])) := by
  intro u v chunked n src
  constructor
  · cases u <;> cases v <;> cases chunked <;> simp [copy_file]
  · intro e
    simp [copy_file]

/-- C2: a per-file failure never aborts the batch: for every oracle and every
missing list of length N, `copy_missing_files` attempts every path, its
success count plus the length of its failure list equals N, and the failure
list records exactly the formatted reason of each failing path in order. -/
theorem batch_isolates_failures :
    ∀ (copy : CopyOracle) (missing : List String) (origin dest : String),
      (copy_missing_files copy missing origin dest).1
        + (copy_missing_files copy missing origin dest).2.length = missing.length
    ∧ (copy_missing_files copy missing origin dest).2
        = (sorted_missing missing).filterMap (failure_entry copy origin dest) := by
  intro copy missing origin dest
  constructor
  · show (copy_loop copy origin dest (sorted_missing missing) 0 []).1
        + (copy_loop copy origin dest (sorted_missing missing) 0 []).2.length
        = missing.length
    rw [copy_loop_count]
    simp [sorted_missing]
  · show (copy_loop copy origin dest (sorted_missing missing) 0 []).2 = _
    rw [copy_loop_errors]
    simp

/-- C6: the batch runner sorts the missing set before iterating: the list it
consumes is lexicographically sorted, is a permutation of the input, and
`copy_missing_files` is exactly the per-file loop run over that sorted list,
so per-file outcomes are recorded in that fixed order. -/
theorem batch_processes_in_sorted_order :
    ∀ (missing : List String) (copy : CopyOracle) (origin dest : String),
      List.Sorted (fun a b : String => a ≤ b) (sorted_missing missing)
    ∧ (sorted_missing missing).Perm missing
    ∧ copy_missing_files copy missing origin dest
        = copy_loop copy origin dest (sorted_missing missing) 0 [] := by
  intro missing copy origin dest
  refine ⟨?_, List.mergeSort_perm missing _, rfl⟩
  have htrans : ∀ (a b c : String),
      (fun a b : String => decide (a ≤ b)) a b →
      (fun a b : String => decide (a ≤ b)) b c →
      (fun a b : String => decide (a ≤ b)) a c := by
    intro a b c h1 h2
    simp only [decide_eq_true_eq] at h1 h2 ⊢
    exact le_trans h1 h2
  have htotal : ∀ (a b : String),
      ((fun a b : String => decide (a ≤ b)) a b
        || (fun a b : String => decide (a ≤ b)) b a) = true := by
    intro a b
    simpa using le_total a b
  have hp := @List.sorted_mergeSort String (fun a b : String => decide (a ≤ b))
    htrans htotal missing
  show List.Pairwise (fun a b : String => a ≤ b) (sorted_missing missing)
  exact hp.imp (fun hab => by simpa using hab)

/-- C7: `ensure_parent_dir` makes the destination parent chain exist before
writing: a non-empty parent is in the resulting directory set, a missing
parent gets its whole ancestor chain created, an already-present parent
leaves the state unchanged (no failure, the model is total), and the
operation is idempotent. -/
theorem ensure_parent_dir_spec :
    ∀ (dirs : Finset String) (path : String),
      (dirname path ≠ "" → dirname path ∈ ensure_parent_dir dirs path)
    ∧ (dirname path ∉ dirs →
        (makedirs_chain (dirname path)).toFinset ⊆ ensure_parent_dir dirs path)
    ∧ (dirname path ∈ dirs → ensure_parent_dir dirs path = dirs)
    ∧ ensure_parent_dir (ensure_parent_dir dirs path) path
        = ensure_parent_dir dirs path := by
  intro dirs path
  refine ⟨?_, ?_, ?_, ?_⟩
  · intro hne
    by_cases hmem : dirname path ∈ dirs
    · rw [ensure_parent_dir, if_neg (fun hc => hc.2 hmem)]
      exact hmem
    · rw [ensure_parent_dir, if_pos ⟨hne, hmem⟩, makedirs]
      exact Finset.mem_union_right _
        (List.mem_toFinset.mpr (mem_makedirs_chain_self _ hne))
  · intro hnot
    by_cases hne : dirname path = ""
    · rw [hne, makedirs_chain]
      simp
    · rw [ensure_parent_dir, if_pos ⟨hne, hnot⟩, makedirs]
      exact Finset.subset_union_right
  · intro hmem
    rw [ensure_parent_dir, if_neg (fun hc => hc.2 hmem)]
  · by_cases hcond : dirname path ≠ "" ∧ dirname path ∉ dirs
    · have hmem : dirname path ∈ makedirs dirs (dirname path) := by
        rw [makedirs]
        exact Finset.mem_union_right _
          (List.mem_toFinset.mpr (mem_makedirs_chain_self _ hcond.1))
      have h1 : ensure_parent_dir dirs path = makedirs dirs (dirname path) := by
        rw [ensure_parent_dir, if_pos hcond]
      rw [h1, ensure_parent_dir, if_neg (fun hc => hc.2 hmem)]
    · have h1 : ensure_parent_dir dirs path = dirs := by
        rw [ensure_parent_dir, if_neg hcond]
      rw [h1, ensure_parent_dir, if_neg hcond]

/-- C7 witness: starting from no directories, ensuring the parent of
`a/b/c` puts the parent `a/b` into the directory set. -/
theorem ensure_parent_dir_spec_witness :
    dirname "a/b/c" ∈ ensure_parent_dir (∅ : Finset String) "a/b/c" :=
  (ensure_parent_dir_spec (∅ : Finset String) "a/b/c").1 (by decide)

/-- C4: the claim asks for a loud failure on a non-existent or unreadable
root, but `list_files_recursive` has no failure channel at all: when the walk
yields nothing (the `none` root), it silently returns the empty set, and
`compare` with such an origin silently reports nothing missing. -/
theorem indexing_missing_root_is_silent :
    list_files_recursive none = (∅ : Finset String)
  ∧ compare none (some ["a.txt"]) = (∅ : Finset String) := by
  constructor
  · rfl
  · rfl

/-- C9: the worker emits exactly one progress notification per processed
file, with current indices forming the strictly increasing sequence
1, ..., N, and emits the finished signal exactly once, as the last event
(hence after every progress notification). -/
theorem worker_progress_indices_and_finished :
    ∀ (copy : CopyOracle) (files : List String) (origin dest : String),
      (worker_run copy files origin dest).filterMap progressCurrent
        = List.range' 1 files.length
    ∧ ((worker_run copy files origin dest).filter isFinishedEvent).length = 1
    ∧ (worker_run copy files origin dest).getLast?
        = some (WEvent.finished
            (worker_loop copy origin dest files.length files 1 0 0).2.1
            (worker_loop copy origin dest files.length files 1 0 0).2.2 dest) := by
  intro copy files origin dest
  refine ⟨?_, ?_, ?_⟩
  · rw [worker_run, List.filterMap_append, worker_loop_progress]
    simp [progressCurrent]
  · rw [worker_run, List.filter_append]
    have hnil : (worker_loop copy origin dest files.length files 1 0 0).1.filter
        isFinishedEvent = [] := by
      rw [List.filter_eq_nil_iff]
      intro ev hev
      simp [worker_loop_no_finished copy origin dest files.length files 1 0 0 ev hev]
    rw [hnil]
    simp [isFinishedEvent]
  · rw [worker_run]
    exact List.getLast?_concat _

end FileXTransfer
